import Mathlib

/-!
Verification of the record-extraction engine of the text-recognition OCR
application (module `modules/table_extractor.py`).

The extraction core is shallowly embedded below.  Strings are modelled as
`List Char` (Python strings are sequences of code points, and `len`,
slicing and iteration are code-point based).  Python's `re` module, as used
by the extractor, is modelled by a small backtracking engine over the exact
pattern shapes appearing in the source: every pattern is a sequence of
greedy character-class repetitions plus the anchors `\b` and `$`.  The
engine tries start positions left to right and, within a start position,
larger repetition counts first — which is exactly CPython's leftmost /
greedy-with-backtracking behaviour for such patterns.

Modelling restrictions (documented, all conservative for the inputs the
claims quantify over): `\d` is modelled as the ASCII digits, `\s` as the six
ASCII whitespace characters, word characters (for `\b`) as ASCII
alphanumerics, underscore, and the Cyrillic letters, and `str.lower` maps
ASCII and Cyrillic capitals to their lower-case forms and fixes everything
else.
-/

namespace OcrExtract

/-! ## Character predicates and lower-casing -/

/-- ASCII decimal digit (`\d` as used by the extractor's patterns). -/
def isDigitC (c : Char) : Bool :=
  0x30 ≤ c.toNat ∧ c.toNat ≤ 0x39

/-- Python `str.strip()` / regex `\s` whitespace, restricted to ASCII:
space, tab, newline, carriage return, vertical tab, form feed. -/
def isSpaceC (c : Char) : Bool :=
  c.toNat = 0x20 ∨ (9 ≤ c.toNat ∧ c.toNat ≤ 13)

/-- ASCII upper-case letter `[A-Z]`. -/
def isUpperC (c : Char) : Bool :=
  0x41 ≤ c.toNat ∧ c.toNat ≤ 0x5A

/-- ASCII lower-case letter `[a-z]`. -/
def isLowerC (c : Char) : Bool :=
  0x61 ≤ c.toNat ∧ c.toNat ≤ 0x7A

/-- ASCII letter `[A-Za-z]`. -/
def isAlphaC (c : Char) : Bool :=
  isUpperC c || isLowerC c

/-- ASCII alphanumeric `[A-Za-z0-9]`. -/
def isAlnumC (c : Char) : Bool :=
  isAlphaC c || isDigitC c

/-- Cyrillic letter (the range А..я plus Ё/ё). -/
def isCyrC (c : Char) : Bool :=
  (0x410 ≤ c.toNat ∧ c.toNat ≤ 0x44F) ∨ c.toNat = 0x401 ∨ c.toNat = 0x451

/-- Word character for the `\b` anchor: ASCII alphanumerics, underscore,
and Cyrillic letters (the only letters occurring in the inputs). -/
def isWordC (c : Char) : Bool :=
  isAlnumC c || c = '_' || isCyrC c

/-- The separator class `[-_]` of the article patterns. -/
def isDashC (c : Char) : Bool :=
  c = '-' || c = '_'

/-- Python `str.lower`, restricted to ASCII `A-Z` and Cyrillic `А-Я`/`Ё`
(all characters relevant to the extractor's keyword and pattern tests);
every other character is fixed. -/
def pyLower (c : Char) : Char :=
  if 0x41 ≤ c.toNat ∧ c.toNat ≤ 0x5A then Char.ofNat (c.toNat + 0x20)
  else if 0x410 ≤ c.toNat ∧ c.toNat ≤ 0x42F then Char.ofNat (c.toNat + 0x20)
  else if c.toNat = 0x401 then 'ё'
  else c

/-- The keeper predicate (used to bound name lengths): the character's
lower-case form is Cyrillic. -/
def keeps (c : Char) : Bool := isCyrC (pyLower c)

/-! ## Python string primitives -/

/-- Python `str.lstrip()` on a character list. -/
def lstripWs (cs : List Char) : List Char :=
  cs.dropWhile isSpaceC

/-- Python `str.strip()`: drop whitespace from both ends. -/
def pyStrip (cs : List Char) : List Char :=
  ((cs.dropWhile isSpaceC).reverse.dropWhile isSpaceC).reverse

/-- Python `str.strip(chars)` for a given character set. -/
def pyStripSet (p : Char → Bool) (cs : List Char) : List Char :=
  ((cs.dropWhile p).reverse.dropWhile p).reverse

/-- Characters stripped by `name.strip('.,;:-_|')` in `_extract_name`. -/
def isNamePunct (c : Char) : Bool :=
  c = '.' || c = ',' || c = ';' || c = ':' || c = '-' || c = '_' || c = '|'

/-- Python `text.split` on a newline: empty pieces are kept, and `[""]` results on the
empty string. -/
def splitNl : List Char → List (List Char)
  | [] => [[]]
  | c :: rest =>
    if c = '\n' then [] :: splitNl rest
    else
      match splitNl rest with
      | [] => [[c]]
      | l :: ls => (c :: l) :: ls

/-- One step of `re.sub(r'\s+', ' ', s)`: the flag records whether the
previous character was whitespace (so a run contributes one space). -/
def collapseWsAux : Bool → List Char → List Char
  | _, [] => []
  | prevWs, c :: rest =>
    if isSpaceC c then
      if prevWs then collapseWsAux true rest
      else ' ' :: collapseWsAux true rest
    else c :: collapseWsAux false rest

/-- Python `re.sub` of `\s+` by a space: every maximal whitespace run becomes one space. -/
def collapseWs (cs : List Char) : List Char :=
  collapseWsAux false cs

/-- Left-to-right non-overlapping removal of every occurrence of `old`
(`s.replace(old, '')`); the first argument counts characters of a
partially-consumed occurrence still to skip. -/
def removeAllGo (old : List Char) : Nat → List Char → List Char
  | _ + 1, [] => []
  | skip + 1, _ :: rest => removeAllGo old skip rest
  | 0, [] => []
  | 0, c :: rest =>
    if old.isPrefixOf (c :: rest) then removeAllGo old (old.length - 1) rest
    else c :: removeAllGo old 0 rest

/-- Python `s.replace(old, '')` for non-empty `old` (the extractor only calls
`replace` under a non-emptiness guard). -/
def removeAll (old cs : List Char) : List Char :=
  removeAllGo old 0 cs

/-- Python's substring test `needle in hay`. -/
def containsSub (needle : List Char) : List Char → Bool
  | [] => needle.isEmpty
  | c :: rest => needle.isPrefixOf (c :: rest) || containsSub needle rest

/-- Python `candidate.isdigit()`: non-empty and all (ASCII) digits.  The article
candidates only ever contain ASCII alphanumerics, `-` and `_`, so the
ASCII restriction is faithful. -/
def pyIsDigitStr (cs : List Char) : Bool :=
  !cs.isEmpty && cs.all isDigitC

/-- Removal of `re.sub(r'^\d+\s*\.?\s*', '', s)`: strip a leading row number.  The
anchored greedy pattern deletes a non-empty digit run, then optional
whitespace, an optional period, and optional whitespace. -/
def stripRowNum (cs : List Char) : List Char :=
  match cs with
  | [] => []
  | c :: _ =>
    if isDigitC c then
      let r1 := cs.dropWhile isDigitC
      let r2 := r1.dropWhile isSpaceC
      match r2 with
      | '.' :: t => t.dropWhile isSpaceC
      | _ => r2
    else cs

/-! ## Regex engine

Every pattern used by the extractor is a sequence of greedy bounded
repetitions of character classes, optionally with a `\b` anchor and a `$`
anchor.  `reMatch` is the anchored backtracking matcher (greedy: larger
counts first), `reSearch` scans start positions left to right — exactly
CPython's behaviour on these patterns. -/

/-- One regex item: a greedy repetition `cls{lo,hi}` (`hi = none` meaning
unbounded), a word-boundary anchor `\b`, or the end anchor `$`. -/
inductive RItem where
  | rep (cls : Char → Bool) (lo : Nat) (hi : Option Nat)
  | bnd
  | eos

/-- A single mandatory character `cls{1,1}`. -/
def RItem.one (cls : Char → Bool) : RItem := .rep cls 1 (some 1)

/-- An optional character `cls?`. -/
def RItem.opt (cls : Char → Bool) : RItem := .rep cls 0 (some 1)

/-- A case-insensitive literal character (for the `re.IGNORECASE` quantity
patterns). -/
def RItem.ci (c : Char) : RItem := .one (fun d => pyLower d = c)

/-- Length of the maximal run of characters satisfying `p`. -/
def takeRun (p : Char → Bool) : List Char → Nat
  | [] => 0
  | c :: rest => if p c then takeRun p rest + 1 else 0

/-- Whether a word character sits at index `i` (false beyond the ends). -/
def wordAt (cs : List Char) (i : Nat) : Bool :=
  match cs.get? i with
  | some c => isWordC c
  | none => false

/-- Anchor `\b` holds at position `i`: word-ness differs between the previous and
the current character. -/
def boundaryAt (cs : List Char) (i : Nat) : Bool :=
  match i with
  | 0 => wordAt cs 0
  | j + 1 => wordAt cs j != wordAt cs (j + 1)

/-- Anchor `$` (without `re.MULTILINE`): the end of the string, or just before a
final newline. -/
def eosAt (cs : List Char) (i : Nat) : Bool :=
  i = cs.length || (i + 1 = cs.length && cs.get? i = some '\n')

/-- Try `f d`, `f (d-1)`, …, `f 0` and return the first success: the
greedy preference order for a repetition allowed to absorb up to `d`
characters beyond its minimum. -/
def tryDesc (f : Nat → Option Nat) : Nat → Option Nat
  | 0 => f 0
  | d + 1 =>
    match f (d + 1) with
    | some r => some r
    | none => tryDesc f d

/-- The largest count a repetition may absorb: the available run, capped by
the upper bound when present. -/
def repMax (run : Nat) : Option Nat → Nat
  | some h => min run h
  | none => run

/-- Anchored match of an item sequence at position `i`; returns the end
position of the (greedily) first match found by backtracking. -/
def reMatch (cs : List Char) : List RItem → Nat → Option Nat
  | [], i => some i
  | .bnd :: rest, i => if boundaryAt cs i then reMatch cs rest i else none
  | .eos :: rest, i => if eosAt cs i then reMatch cs rest i else none
  | .rep p lo hi :: rest, i =>
    if repMax (takeRun p (cs.drop i)) hi < lo then none
    else tryDesc (fun d => reMatch cs rest (i + lo + d))
      (repMax (takeRun p (cs.drop i)) hi - lo)

/-- Python `re.search`: the leftmost start position with a match, together with
the match's end position. -/
def reSearch (items : List RItem) (cs : List Char) : Option (Nat × Nat) :=
  (List.range (cs.length + 1)).findSome? fun i =>
    (reMatch cs items i).map fun e => (i, e)

/-- Python `re.search(...).group()`: the matched substring. -/
def reSearchGroup (items : List RItem) (cs : List Char) : Option (List Char) :=
  (reSearch items cs).map fun ie => ((cs.drop ie.1).take (ie.2 - ie.1))

/-! ## The pattern rule set (`TableExtractor.__init__`) -/

/-- Pattern `r'[A-Za-z0-9]{1,3}[-_]?\d{2,4}[-_]?[A-Za-z]{0,5}'` (source comment:
"A001-2024, B152-ST"). -/
def articlePat1 : List RItem :=
  [.rep isAlnumC 1 (some 3), .opt isDashC, .rep isDigitC 2 (some 4),
   .opt isDashC, .rep isAlphaC 0 (some 5)]

/-- Pattern `r'[A-Z]\d{2,4}'` (source comment: "A001, B152"). -/
def articlePat2 : List RItem :=
  [.one isUpperC, .rep isDigitC 2 (some 4)]

/-- Pattern `r'\d{3,6}[-_][A-Za-z]{2,6}'` (source comment: "001-PRO"). -/
def articlePat3 : List RItem :=
  [.rep isDigitC 3 (some 6), .one isDashC, .rep isAlphaC 2 (some 6)]

/-- Pattern `r'[A-Za-z]{1,2}\d{3,4}[-_]?[A-Za-z]*'` (source comment: "AB123-XX"). -/
def articlePat4 : List RItem :=
  [.rep isAlphaC 1 (some 2), .rep isDigitC 3 (some 4), .opt isDashC,
   .rep isAlphaC 0 none]

/-- The ordered article pattern list `self.patterns['article']`. -/
def articlePatterns : List (List RItem) :=
  [articlePat1, articlePat2, articlePat3, articlePat4]

/-- The ordered quantity pattern list `self.patterns['quantity']`, compiled
with `re.IGNORECASE` (case-insensitive literals):
`\d+\s*шт\.?`, `\d+\s*штук`, `\d+\s*единиц?`, `\d+\s*[мкгт]г`,
`\d+\s*л`, `\d+\s*кг`, `\d+\s*м`. -/
def quantityPatterns : List (List RItem) :=
  [ [.rep isDigitC 1 none, .rep isSpaceC 0 none, .ci 'ш', .ci 'т', .opt (· = '.')],
    [.rep isDigitC 1 none, .rep isSpaceC 0 none, .ci 'ш', .ci 'т', .ci 'у', .ci 'к'],
    [.rep isDigitC 1 none, .rep isSpaceC 0 none, .ci 'е', .ci 'д', .ci 'и', .ci 'н',
      .ci 'и', .opt (fun c => pyLower c = 'ц')],
    [.rep isDigitC 1 none, .rep isSpaceC 0 none,
      .one (fun c => pyLower c = 'м' || pyLower c = 'к' || pyLower c = 'г' || pyLower c = 'т'),
      .ci 'г'],
    [.rep isDigitC 1 none, .rep isSpaceC 0 none, .ci 'л'],
    [.rep isDigitC 1 none, .rep isSpaceC 0 none, .ci 'к', .ci 'г'],
    [.rep isDigitC 1 none, .rep isSpaceC 0 none, .ci 'м'] ]

/-- The bare-number fallback pattern `r'\b\d+\s*$'` of `_extract_quantity`. -/
def qtyFallbackPat : List RItem :=
  [.bnd, .rep isDigitC 1 none, .rep isSpaceC 0 none, .eos]

/-- Header keywords skipped in line mode (`extract_from_text`). -/
def lineHeaderWords : List (List Char) :=
  (["артикул", "наименование", "количество", "товар", "позиция"]).map String.data

/-- Product keywords of `_looks_like_product_line`. -/
def productKeywords : List (List Char) :=
  (["болт", "гайка", "винт", "шайба", "дюбель", "саморез", "скоба",
    "крепеж", "метиз", "деталь", "запчасть", "изделие"]).map String.data

/-! ## Line-mode extraction -/

/-- Output record (dict with keys Артикул / Наименование / Количество). -/
structure Record where
  code : String
  name : String
  quantity : String
deriving DecidableEq

/-- Source `TableExtractor._extract_article`: first pattern (in priority order)
whose leftmost match survives the validity filter (length ≥ 3 and not
purely numeric); empty string when none does. -/
def extractArticleGo (cs : List Char) : List (List RItem) → List Char
  | [] => []
  | p :: ps =>
    match reSearchGroup p cs with
    | some m =>
      let candidate := pyStrip m
      if 3 ≤ candidate.length ∧ ¬pyIsDigitStr candidate then candidate
      else extractArticleGo cs ps
    | none => extractArticleGo cs ps

/-- Source `TableExtractor._extract_article` on a character list. -/
def extractArticle (cs : List Char) : List Char :=
  extractArticleGo cs articlePatterns

/-- First quantity pattern with a match, in priority order. -/
def extractQuantityGo (cs : List Char) : List (List RItem) → Option (List Char)
  | [] => none
  | p :: ps =>
    match reSearchGroup p cs with
    | some m => some (pyStrip m)
    | none => extractQuantityGo cs ps

/-- Source `TableExtractor._extract_quantity`: first quantity-pattern match, else
the trailing bare number (with `' шт'` appended), else empty. -/
def extractQuantity (cs : List Char) : List Char :=
  match extractQuantityGo cs quantityPatterns with
  | some q => q
  | none =>
    match reSearchGroup qtyFallbackPat cs with
    | some m => pyStrip m ++ " шт".data
    | none => []

/-- Source `TableExtractor._looks_like_product_line`. -/
def looksLikeProduct (cs : List Char) : Bool :=
  productKeywords.any fun kw => containsSub kw (cs.map pyLower)

/-- Source `TableExtractor._extract_name`: remove the article and quantity
substrings, collapse whitespace, strip edge punctuation, drop a leading
row number, and blank out residuals shorter than 3 characters. -/
def extractName (cs article quantity : List Char) : List Char :=
  let n1 := if article ≠ [] then removeAll article cs else cs
  let n2 := if quantity ≠ [] then removeAll quantity n1 else n1
  let n3 := pyStrip (collapseWs n2)
  let n4 := pyStripSet isNamePunct n3
  let n5 := stripRowNum n4
  if n5.length < 3 then [] else n5

/-- Processing of a single line inside `extract_from_text`: at most one
record. -/
def processLine (line : List Char) : List Record :=
  let l := pyStrip line
  if l.length < 3 then []
  else if lineHeaderWords.any (fun w => containsSub w (l.map pyLower)) then []
  else
    let article := extractArticle l
    let quantity := extractQuantity l
    if article ≠ [] ∨ quantity ≠ [] ∨ looksLikeProduct l then
      let nm := extractName l article quantity
      if article ≠ [] ∨ (nm ≠ [] ∧ 2 < nm.length) then
        [⟨String.mk article, String.mk nm, String.mk quantity⟩]
      else []
    else []

/-- Source `TableExtractor.extract_from_text`. -/
def extractFromText (text : String) : List Record :=
  (splitNl text.data).flatMap processLine

/-! ## Table-mode extraction

A cell is `Option String` (`none` models Python `None`; numeric cells are
normalized to their string form at the boundary, per the data model). -/

/-- A table cell. -/
abbrev Cell := Option String

/-- Python truthiness of a cell: `None` and the empty string are falsy. -/
def cellTruthy : Cell → Bool
  | none => false
  | some s => !s.isEmpty

/-- Python `str(cell)` (the `none` branch is never reached by the extractor: every
`str(cell)` in the source is guarded by truthiness or a `None` test). -/
def cellStr : Cell → List Char
  | none => "None".data
  | some s => s.data

/-- Python `str(cell or '')`: the empty string when the cell is falsy. -/
def cellOrEmpty (c : Cell) : List Char :=
  if cellTruthy c then cellStr c else []

/-- A row is skipped when it is empty or all its cells are `None`/blank. -/
def rowBlank (row : List Cell) : Bool :=
  row.isEmpty || row.all fun c =>
    match c with
    | none => true
    | some s => (pyStrip s.data).isEmpty

/-- Python `' '.join(str(cell) for cell in row if cell)`. -/
def joinCells (row : List Cell) : List Char :=
  List.intercalate " ".data ((row.filter cellTruthy).map cellStr)

/-- Python `' '.join(str(cell).lower() for cell in row if cell)`. -/
def joinCellsLower (row : List Cell) : List Char :=
  List.intercalate " ".data ((row.filter cellTruthy).map fun c => (cellStr c).map pyLower)

/-- Header keywords counted by `_find_header_row`. -/
def tableHeaderWords : List (List Char) :=
  (["артикул", "наименование", "количество", "код", "название", "кол-во", "товар"]).map
    String.data

/-- Number of distinct header keywords occurring in a row's lowercase
join. -/
def headerKwCount (row : List Cell) : Nat :=
  tableHeaderWords.countP fun kw => containsSub kw (joinCellsLower row)

/-- The scanning loop of `_find_header_row`, carrying the enumeration
index. -/
def findHeaderRowAux : Nat → List (List Cell) → Nat
  | _, [] => 0
  | i, row :: rest =>
    if row.isEmpty then findHeaderRowAux (i + 1) rest
    else if 2 ≤ headerKwCount row then i
    else findHeaderRowAux (i + 1) rest

/-- Source `TableExtractor._find_header_row`: first row with ≥ 2 header keywords,
else 0. -/
def findHeaderRow (table : List (List Cell)) : Nat :=
  findHeaderRowAux 0 table

/-- Column-role indices (`-1` = unresolved, as in the source). -/
structure ColIdx where
  article : Int
  name : Int
  quantity : Int
deriving DecidableEq

/-- The scanning loop of `_find_column_indices` (later matches overwrite
earlier ones; within one cell the article/name/quantity groups are tried
in that order). -/
def findColumnIndicesAux : Nat → ColIdx → List Cell → ColIdx
  | _, acc, [] => acc
  | i, acc, c :: rest =>
    if !cellTruthy c then findColumnIndicesAux (i + 1) acc rest
    else
      let cl := (cellStr c).map pyLower
      let acc' :=
        if containsSub "артикул".data cl || containsSub "код".data cl then
          { acc with article := (i : Int) }
        else if containsSub "наименование".data cl || containsSub "название".data cl ||
            containsSub "товар".data cl then
          { acc with name := (i : Int) }
        else if containsSub "количество".data cl || containsSub "кол-во".data cl ||
            containsSub "штук".data cl then
          { acc with quantity := (i : Int) }
        else acc
      findColumnIndicesAux (i + 1) acc' rest

/-- Source `TableExtractor._find_column_indices`. -/
def findColumnIndices (headerRow : List Cell) : ColIdx :=
  findColumnIndicesAux 0 ⟨-1, -1, -1⟩ headerRow

/-- The guarded column read `str(row[i] or '').strip()` — empty when the
index is unresolved or out of bounds. -/
def colRead (row : List Cell) (i : Int) : List Char :=
  if 0 ≤ i ∧ i < (row.length : Int) then
    pyStrip (cellOrEmpty ((row.get? i.toNat).getD none))
  else []

/-- The article value of `_extract_row_data`: the column read, or (when
that is empty) the Code Matcher over the joined non-empty cells. -/
def rowArticle (row : List Cell) (idx : ColIdx) : List Char :=
  if colRead row idx.article = [] then extractArticle (joinCells row)
  else colRead row idx.article

/-- The name value of `_extract_row_data`: the column read, or — only when
that is empty and the article is non-empty — the name residual over the
joined cells, computed with the pre-fallback quantity (the quantity column
read). -/
def rowName (row : List Cell) (idx : ColIdx) : List Char :=
  if colRead row idx.name = [] ∧ rowArticle row idx ≠ [] then
    extractName (joinCells row) (rowArticle row idx) (colRead row idx.quantity)
  else colRead row idx.name

/-- The quantity value of `_extract_row_data`: the column read, or (when
that is empty) the Quantity Matcher over the joined cells. -/
def rowQuantity (row : List Cell) (idx : ColIdx) : List Char :=
  if colRead row idx.quantity = [] then extractQuantity (joinCells row)
  else colRead row idx.quantity

/-- Source `TableExtractor._extract_row_data`. -/
def extractRowData (row : List Cell) (idx : ColIdx) : Option Record :=
  if row.isEmpty then none
  else if rowArticle row idx ≠ [] ∨ rowName row idx ≠ [] then
    some ⟨String.mk (rowArticle row idx), String.mk (rowName row idx),
      String.mk (rowQuantity row idx)⟩
  else none

/-- Source `TableExtractor.extract_from_table`. -/
def extractFromTable (table : List (List Cell)) : List Record :=
  if table.isEmpty ∨ table.length < 2 then []
  else
    let headerRow := findHeaderRow table
    let idx := findColumnIndices ((table.get? headerRow).getD [])
    (table.drop (headerRow + 1)).filterMap fun row =>
      if rowBlank row then none else extractRowData row idx

/-! ## Specification-side definitions

These follow the wording of the specification (to be compared with the
embedded source functions above). -/

/-- Spec §4.1: the validated candidate of one code pattern — its first
match, kept only when at least 3 characters long and not purely numeric. -/
def articleSpecCandidate (cs : List Char) (p : List RItem) : Option (List Char) :=
  (reSearchGroup p cs).bind fun m =>
    let candidate := pyStrip m
    if 3 ≤ candidate.length ∧ ¬pyIsDigitStr candidate then some candidate else none

/-- Spec §4.1: "the first substring matching any pattern in `codePatterns`
(earlier patterns take precedence), subject to the validity filter; if no
pattern matches or all matches are filtered out, returns empty." -/
def articleSpec (cs : List Char) : List Char :=
  (articlePatterns.findSome? (articleSpecCandidate cs)).getD []

/-- The string with its trailing whitespace removed. -/
def dropTrailingWs (cs : List Char) : List Char :=
  (cs.reverse.dropWhile isSpaceC).reverse

/-- Spec §4.2's fallback condition: the line ends with a bare number
(optionally followed by whitespace) — a non-empty maximal digit run that
is either the whole rest of the line or is preceded by a non-word
character ("bare"), with only whitespace after it. -/
def bareTrailingNumber (cs : List Char) : Option (List Char) :=
  let t := dropTrailingWs cs
  let d := (t.reverse.takeWhile isDigitC).reverse
  let p := (t.reverse.dropWhile isDigitC).reverse
  if d.isEmpty then none
  else
    match p.getLast? with
    | none => some d
    | some z => if isWordC z then none else some d

/-- Spec §4.2: first quantity-pattern match in priority order, else the
trailing bare number with the default unit appended, else empty. -/
def quantitySpec (cs : List Char) : List Char :=
  match quantityPatterns.findSome? (fun p => (reSearchGroup p cs).map pyStrip) with
  | some q => q
  | none =>
    match bareTrailingNumber cs with
    | some d => d ++ " шт".data
    | none => []

/-- Spec §4.4: the first row whose lowercase-joined non-empty cells contain
at least two header keywords; row 0 when no row reaches the threshold. -/
def headerRowSpec (table : List (List Cell)) : Nat :=
  (table.findIdx? fun row => 2 ≤ headerKwCount row).getD 0

/-! ## Checked table-mode extraction (for the totality claim)

Python sequence indexing raises `IndexError` out of range; the source
indexes `table[header_row]` and `table[i]` without a surrounding bounds
check.  `extractFromTableE` models those accesses with `Option`-valued
lookup (`none` = a raised exception) and is otherwise the same function. -/

/-- Fallible sequential indexing: fetch `l[i]` for each listed index,
failing (like a raised `IndexError`) on the first out-of-range access. -/
def getRows (l : List (List Cell)) : List Nat → Option (List (List Cell))
  | [] => some []
  | i :: is => do
    let r ← l.get? i
    let rs ← getRows l is
    some (r :: rs)

/-- Source `extract_from_table` with every unchecked list indexing made fallible. -/
def extractFromTableE (table : List (List Cell)) : Option (List Record) :=
  if table.isEmpty ∨ table.length < 2 then some []
  else do
    let headerRow := findHeaderRow table
    let headerCells ← table.get? headerRow
    let idx := findColumnIndices headerCells
    let rows ← getRows table (List.range' (headerRow + 1) (table.length - (headerRow + 1)))
    some (rows.filterMap fun row =>
      if rowBlank row then none else extractRowData row idx)

/-! ## Claim theorems -/

/-- C1: for the input line "A001-2024 Болт крепёжный М8х40 50 шт",
line-mode extraction returns exactly one record, and its code field is
"A001-" — not the "A001-2024" required by the claim (and by the source's
own comment next to the first article pattern): the pattern
`[A-Za-z0-9]{1,3}[-_]?\d{2,4}[-_]?[A-Za-z]{0,5}` cannot consume the digits
after the hyphen, so the greedy leftmost match stops at "A001-".  Name and
quantity come out as the claim states. -/
theorem claim_C1_eval :
    extractFromText "A001-2024 Болт крепёжный М8х40 50 шт" =
      [⟨"A001-", "Болт крепёжный М8х40", "50 шт"⟩] := by decide

/-- C2 counterexample: the table [["Артикул","Наименование"], ["","ab"]]
makes table-mode emit the record ⟨"", "ab", ""⟩ whose code is empty and
whose name has length 2 < 3 after trimming, refuting the claimed
invariant. -/
theorem claim_C2_counterexample :
    extractFromTable [[some "Артикул", some "Наименование"], [some "", some "ab"]] =
      [⟨"", "ab", ""⟩] ∧ (pyStrip "ab".data).length < 3 := by decide

/-- C3 counterexample: for the table [["Код","x"], ["A123","Болт 50 шт"]]
the name role is unresolved, yet the emitted record's name is
"Болт 50 шт" — while running the §4.3 name-residual procedure over the
concatenation of the row's cells (stripping the matched quantity) yields
"Болт".  The source passes the pre-fallback quantity (empty here) to the
name extractor, so the quantity is not stripped from the name. -/
theorem claim_C3_counterexample :
    extractFromTable [[some "Код", some "x"], [some "A123", some "Болт 50 шт"]] =
      [⟨"A123", "Болт 50 шт", "50 шт"⟩] ∧
    extractName (joinCells [some "A123", some "Болт 50 шт"]) "A123".data
        (extractQuantity (joinCells [some "A123", some "Болт 50 шт"])) =
      "Болт".data ∧
    "Болт".data ≠ "Болт 50 шт".data := by decide

/-- C8 counterexample: the line "болт товар" contains the product keyword
"болт", matches no code pattern and no quantity pattern, yet line-mode
extraction emits no record for it — the line also contains the header
keyword "товар" and is skipped before classification. -/
theorem claim_C8_counterexample :
    looksLikeProduct (pyStrip "болт товар".data) = true ∧
    extractArticle (pyStrip "болт товар".data) = [] ∧
    extractQuantity (pyStrip "болт товар".data) = [] ∧
    extractFromText "болт товар" = [] := by decide

/-- C10: a table with fewer than two rows (including the empty table)
yields the empty record sequence, whatever its rows contain. -/
theorem claim_C10_short_table (table : List (List Cell)) (h : table.length < 2) :
    extractFromTable table = [] := by
  unfold extractFromTable
  rw [if_pos (Or.inr h)]

/-- C10 witness: a one-row table with extractable content still yields
nothing. -/
theorem claim_C10_short_table_witness :
    ([[some "A001-2024 Болт 50 шт"]] : List (List Cell)).length < 2 ∧
      extractFromTable [[some "A001-2024 Болт 50 шт"]] = [] :=
  ⟨by decide, claim_C10_short_table [[some "A001-2024 Болт 50 шт"]] (by decide)⟩

/-- A record produced from one line has a non-empty code, or a name of
length at least 3 (as stored, before trimming). -/
theorem processLine_sound (line : List Char) (r : Record) (hr : r ∈ processLine line) :
    r.code ≠ "" ∨ (r.name ≠ "" ∧ 3 ≤ r.name.length) := by
  simp only [processLine] at hr
  split at hr
  · simp at hr
  split at hr
  · simp at hr
  split at hr
  case isTrue =>
    split at hr
    case isTrue hemit =>
      simp only [List.mem_singleton] at hr
      subst hr
      rcases hemit with ha | ⟨hn, hlen⟩
      · exact Or.inl (by simpa [String.ext_iff] using ha)
      · refine Or.inr ⟨by simpa [String.ext_iff] using hn, ?_⟩
        simpa [String.length] using hlen
    case isFalse => simp at hr
  · simp at hr

/-- A record produced from one table row has a non-empty code or a
non-empty name. -/
theorem extractRowData_sound (row : List Cell) (idx : ColIdx) (r : Record)
    (h : extractRowData row idx = some r) : r.code ≠ "" ∨ r.name ≠ "" := by
  rw [extractRowData] at h
  split at h
  · exact absurd h (by simp)
  split at h
  case isTrue hemit =>
    obtain rfl : _ = r := Option.some.inj h
    rcases hemit with ha | hn
    · exact Or.inl (by simpa [String.ext_iff] using ha)
    · exact Or.inr (by simpa [String.ext_iff] using hn)
  case isFalse => exact absurd h (by simp)

/-- C2 (amended): every record emitted by either mode has a non-empty code
or a non-empty name — a record whose only non-empty field is the quantity
is never emitted; in line mode a record with empty code moreover has a
name of stored length at least 3 (though possibly shorter after
trimming). -/
theorem claim_C2_amended :
    (∀ (text : String) (r : Record), r ∈ extractFromText text →
      r.code ≠ "" ∨ (r.name ≠ "" ∧ 3 ≤ r.name.length)) ∧
    (∀ (table : List (List Cell)) (r : Record), r ∈ extractFromTable table →
      r.code ≠ "" ∨ r.name ≠ "") := by
  constructor
  · intro text r hr
    rw [extractFromText, List.mem_flatMap] at hr
    obtain ⟨line, -, hline⟩ := hr
    exact processLine_sound line r hline
  · intro table r hr
    rw [extractFromTable] at hr
    split at hr
    · simp at hr
    · rw [List.mem_filterMap] at hr
      obtain ⟨row, -, hrow⟩ := hr
      split at hrow
      · simp at hrow
      · exact extractRowData_sound row _ r hrow

/-- C2 witness: the single-product-line record satisfies the amended
invariant. -/
theorem claim_C2_amended_witness :
    (⟨"", "Болт без кода", ""⟩ : Record) ∈ extractFromText "Болт без кода" ∧
      ((⟨"", "Болт без кода", ""⟩ : Record).code ≠ "" ∨
        ((⟨"", "Болт без кода", ""⟩ : Record).name ≠ "" ∧
          3 ≤ (⟨"", "Болт без кода", ""⟩ : Record).name.length)) :=
  ⟨by decide, claim_C2_amended.1 "Болт без кода" ⟨"", "Болт без кода", ""⟩ (by decide)⟩

/-- An unresolved or out-of-bounds column index reads as empty. -/
theorem colRead_eq_nil (row : List Cell) (i : Int)
    (h : i < 0 ∨ (row.length : Int) ≤ i) : colRead row i = [] := by
  rw [colRead, if_neg]
  omega

/-- C3 (amended): for every row record, a code or quantity role whose
column index is unresolved or out of bounds is filled by the corresponding
matcher over the concatenation of the row's non-empty cells; the name
role, when unresolved or out of bounds, implies the record's code is
non-empty and the name is the name residual over the concatenation
computed with the record's code and the pre-fallback quantity (the
quantity column read, not the quantity matcher's output). -/
theorem claim_C3_amended (row : List Cell) (idx : ColIdx) (r : Record)
    (h : extractRowData row idx = some r) :
    ((idx.article < 0 ∨ (row.length : Int) ≤ idx.article) →
      r.code = String.mk (extractArticle (joinCells row))) ∧
    ((idx.quantity < 0 ∨ (row.length : Int) ≤ idx.quantity) →
      r.quantity = String.mk (extractQuantity (joinCells row))) ∧
    ((idx.name < 0 ∨ (row.length : Int) ≤ idx.name) →
      r.code ≠ "" ∧
      r.name = String.mk (extractName (joinCells row) r.code.data
        (colRead row idx.quantity))) := by
  rw [extractRowData] at h
  split at h
  · exact absurd h (by simp)
  split at h
  case isFalse => exact absurd h (by simp)
  case isTrue hemit =>
  obtain rfl : _ = r := Option.some.inj h
  refine ⟨fun ha => ?_, fun hq => ?_, fun hn => ?_⟩
  · simp [rowArticle, colRead_eq_nil row idx.article ha]
  · simp [rowQuantity, colRead_eq_nil row idx.quantity hq]
  · have hnil := colRead_eq_nil row idx.name hn
    have hart : rowArticle row idx ≠ [] := by
      intro hempty
      rcases hemit with ha | hname
      · exact ha hempty
      · rw [rowName, hnil] at hname
        rw [if_neg (by simp [hempty])] at hname
        exact hname rfl
    refine ⟨by simpa [String.ext_iff] using hart, ?_⟩
    simp only [rowName, hnil, hart, ne_eq, not_false_iff, and_self, if_pos]

/-- C3 witness: a concrete row with the name and quantity columns
unresolved. -/
theorem claim_C3_amended_witness :
    extractRowData [some "A123", some "Болт 50 шт"] ⟨0, -1, -1⟩ =
        some ⟨"A123", "Болт 50 шт", "50 шт"⟩ ∧
      (⟨"A123", "Болт 50 шт", "50 шт"⟩ : Record).name =
        String.mk (extractName (joinCells [some "A123", some "Болт 50 шт"])
          "A123".data (colRead [some "A123", some "Болт 50 шт"] (-1))) :=
  ⟨by decide,
    ((claim_C3_amended [some "A123", some "Болт 50 шт"] ⟨0, -1, -1⟩
      ⟨"A123", "Болт 50 шт", "50 шт"⟩ (by decide)).2.2 (Or.inl (by decide))).2⟩

/-- C7: line-mode extraction processes the split lines independently, and
a line that is shorter than 3 characters after trimming, or whose
lowercase form contains a header keyword, produces no record. -/
theorem claim_C7_skip :
    (∀ text : String, extractFromText text = (splitNl text.data).flatMap processLine) ∧
    ∀ line : List Char,
      ((pyStrip line).length < 3 ∨
        lineHeaderWords.any (fun w => containsSub w ((pyStrip line).map pyLower)) = true) →
      processLine line = [] := by
  refine ⟨fun _ => rfl, fun line h => ?_⟩
  by_cases hl : (pyStrip line).length < 3
  · simp only [processLine, if_pos hl]
  · rcases h with h | h
    · exact absurd h hl
    · simp only [processLine, if_neg hl, if_pos h]

/-- C7 witness: the header line "Артикул Наименование Кол." is skipped. -/
theorem claim_C7_skip_witness :
    lineHeaderWords.any
        (fun w => containsSub w ((pyStrip "Артикул Наименование Кол.".data).map pyLower)) =
        true ∧
      processLine "Артикул Наименование Кол.".data = [] :=
  ⟨by decide, claim_C7_skip.2 "Артикул Наименование Кол.".data (Or.inr (by decide))⟩

/-- The article loop returns the first validated candidate in pattern
priority order. -/
theorem extractArticleGo_eq (cs : List Char) (ps : List (List RItem)) :
    extractArticleGo cs ps = (ps.findSome? (articleSpecCandidate cs)).getD [] := by
  induction ps with
  | nil => rfl
  | cons p ps ih =>
    rw [List.findSome?_cons]
    cases hm : reSearchGroup p cs with
    | none => simpa [extractArticleGo, articleSpecCandidate, hm] using ih
    | some m =>
      by_cases hv : 3 ≤ (pyStrip m).length ∧ pyIsDigitStr (pyStrip m) = false
      · simp [extractArticleGo, articleSpecCandidate, hm, hv]
      · simpa [extractArticleGo, articleSpecCandidate, hm, hv] using ih

/-- C4: the Code Matcher returns the first pattern-priority substring whose
stripped candidate is at least 3 characters and not purely numeric, and
empty when every pattern fails or is filtered; in particular the purely
numeric "100500" yields empty. -/
theorem claim_C4_article_spec :
    (∀ cs : List Char, extractArticle cs = articleSpec cs) ∧
      extractArticle "100500".data = [] :=
  ⟨fun cs => extractArticleGo_eq cs articlePatterns, by decide⟩

/-- The header-row scan equals "first index whose row meets the ≥ 2 keyword
threshold", with default 0. -/
theorem findHeaderRowAux_eq (t : List (List Cell)) (i : Nat) :
    findHeaderRowAux i t =
      ((t.findIdx? (fun row => 2 ≤ headerKwCount row) i).getD 0) := by
  induction t generalizing i with
  | nil => rfl
  | cons row rest ih =>
    rw [findHeaderRowAux, List.findIdx?_cons]
    by_cases hrow : row.isEmpty
    · have hkw : ¬2 ≤ headerKwCount row := by
        obtain rfl : row = [] := List.isEmpty_iff.mp hrow
        decide
      simp [hrow, hkw, ih]
    · by_cases hkw : 2 ≤ headerKwCount row
      · simp [hrow, hkw]
      · simp [hrow, hkw, ih]

/-- C6: the header row is the first row whose lowercase-joined non-empty
cells contain at least two header keywords, and row 0 when no row reaches
the threshold. -/
theorem claim_C6_header_row :
    ∀ table : List (List Cell), findHeaderRow table = headerRowSpec table :=
  fun table => findHeaderRowAux_eq table 0

/-- The header-row scan returns 0 or an index of a scanned row. -/
theorem findHeaderRowAux_zero_or_lt (t : List (List Cell)) (i : Nat) :
    findHeaderRowAux i t = 0 ∨
      (i ≤ findHeaderRowAux i t ∧ findHeaderRowAux i t < i + t.length) := by
  induction t generalizing i with
  | nil => exact Or.inl rfl
  | cons row rest ih =>
    rw [findHeaderRowAux]
    split
    · rcases ih (i + 1) with h | ⟨h1, h2⟩
      · exact Or.inl h
      · exact Or.inr ⟨by omega, by simpa [Nat.add_comm, Nat.add_left_comm] using h2⟩
    split
    · exact Or.inr ⟨Nat.le_refl i, by simp⟩
    · rcases ih (i + 1) with h | ⟨h1, h2⟩
      · exact Or.inl h
      · exact Or.inr ⟨by omega, by simpa [Nat.add_comm, Nat.add_left_comm] using h2⟩

/-- The detected header row is a valid index of a non-empty table. -/
theorem findHeaderRow_lt (table : List (List Cell)) (h : 0 < table.length) :
    findHeaderRow table < table.length := by
  rcases findHeaderRowAux_zero_or_lt table 0 with h0 | ⟨-, h1⟩
  · rw [findHeaderRow, h0]; exact h
  · simpa [findHeaderRow] using h1

/-- Reading the suffix of indices `[i, length)` through fallible lookup
recovers `drop i`. -/
theorem getRows_range' (l : List (List Cell)) (i : Nat) (h : i ≤ l.length) :
    getRows l (List.range' i (l.length - i)) = some (l.drop i) := by
  have H : ∀ n i, i ≤ l.length → l.length - i = n →
      getRows l (List.range' i (l.length - i)) = some (l.drop i) := by
    intro n
    induction n with
    | zero =>
      intro i _ hn
      have hle : l.length ≤ i := by omega
      simp [hn, List.range', getRows, List.drop_eq_nil_iff.mpr hle]
    | succ n ih =>
      intro i _ hn
      have hi : i < l.length := by omega
      have hrec := ih (i + 1) (by omega) (by omega)
      rw [show l.length - (i + 1) = n from by omega] at hrec
      rw [hn, List.range'_succ]
      simp only [getRows, List.get?_eq_getElem?, List.getElem?_eq_getElem hi,
        show l.length - (i + 1) = n from by omega, hrec,
        Option.bind_eq_bind, Option.some_bind]
      rw [List.drop_eq_getElem_cons hi]
  exact H (l.length - i) i h rfl

/-- C9: table-mode extraction is total: with every unchecked sequence
indexing of the source modelled as a fallible lookup, extraction never
fails and returns exactly the record list of the embedded function (the
header-row index is always in range; line mode contains no fallible
operation at all). -/
theorem claim_C9_total (table : List (List Cell)) :
    extractFromTableE table = some (extractFromTable table) := by
  simp only [extractFromTableE, extractFromTable]
  split
  · rfl
  case isFalse hcond =>
    have hlen : 2 ≤ table.length := by
      rcases Nat.lt_or_ge table.length 2 with h | h
      · exact absurd (Or.inr h) hcond
      · exact h
    have hlt : findHeaderRow table < table.length := findHeaderRow_lt table (by omega)
    rw [List.get?_eq_getElem?, List.getElem?_eq_getElem hlt,
      getRows_range' table _ (by omega)]
    simp [List.get?_eq_getElem?, List.getElem?_eq_getElem hlt]

/-! ## Preservation lemmas for C8

The cleanup steps of `_extract_name` only delete (or insert) non-Cyrillic
characters, so they preserve the count of characters whose lower-case form
is Cyrillic; a product keyword guarantees at least four such characters. -/

/-- A character below the ASCII letters is not lowered to Cyrillic. -/
theorem keeps_false_of_lt (c : Char) (h : c.toNat < 0x41) : keeps c = false := by
  unfold keeps pyLower
  rw [if_neg (by omega), if_neg (by omega), if_neg (by omega)]
  simp only [isCyrC, decide_eq_false_iff_not]
  omega

/-- Whitespace is never kept. -/
theorem keeps_false_of_space (c : Char) (h : isSpaceC c = true) : keeps c = false := by
  refine keeps_false_of_lt c ?_
  simp only [isSpaceC, decide_eq_true_eq] at h
  omega

/-- Digits are never kept. -/
theorem keeps_false_of_digit (c : Char) (h : isDigitC c = true) : keeps c = false := by
  refine keeps_false_of_lt c ?_
  simp only [isDigitC, decide_eq_true_eq] at h
  omega

/-- The stripped punctuation characters are never kept. -/
theorem keeps_false_of_punct (c : Char) (h : isNamePunct c = true) : keeps c = false := by
  simp only [isNamePunct, Bool.or_eq_true, decide_eq_true_eq] at h
  rcases h with ((((((rfl | rfl) | rfl) | rfl) | rfl) | rfl) | rfl) <;> decide

/-- Dropping with `dropWhile` only deletes characters outside `P`. -/
theorem countP_dropWhile (P q : Char → Bool) (hq : ∀ c, q c = true → P c = false)
    (l : List Char) : (l.dropWhile q).countP P = l.countP P := by
  induction l with
  | nil => rfl
  | cons c rest ih =>
    rw [List.dropWhile_cons]
    by_cases hc : q c = true
    · rw [if_pos hc, ih, List.countP_cons, hq c hc]
      simp
    · rw [if_neg hc]

/-- Stripping a character set from both ends preserves the kept count. -/
theorem countP_pyStripSet (P q : Char → Bool) (hq : ∀ c, q c = true → P c = false)
    (l : List Char) : (pyStripSet q l).countP P = l.countP P := by
  unfold pyStripSet
  rw [List.countP_reverse, countP_dropWhile P q hq, List.countP_reverse,
    countP_dropWhile P q hq]

/-- Python `str.strip()` is the whitespace instance of `pyStripSet`. -/
theorem pyStrip_eq (l : List Char) : pyStrip l = pyStripSet isSpaceC l := rfl

/-- Whitespace collapapsing preserves the kept count (it deletes whitespace
and inserts spaces only). -/
theorem countP_collapseWsAux (P : Char → Bool)
    (hq : ∀ c, isSpaceC c = true → P c = false) (b : Bool) (l : List Char) :
    (collapseWsAux b l).countP P = l.countP P := by
  induction l generalizing b with
  | nil => rfl
  | cons c rest ih =>
    rw [collapseWsAux]
    by_cases hc : isSpaceC c = true
    · rw [if_pos hc, List.countP_cons, hq c hc]
      cases b with
      | true => simp [ih]
      | false => simp [ih, hq ' ' (by decide)]
    · rw [if_neg hc, List.countP_cons, List.countP_cons, ih]

/-- Dropping the leading row number preserves the kept count. -/
theorem countP_stripRowNum (P : Char → Bool)
    (hsp : ∀ c, isSpaceC c = true → P c = false)
    (hdg : ∀ c, isDigitC c = true → P c = false)
    (hdot : P '.' = false) (l : List Char) :
    (stripRowNum l).countP P = l.countP P := by
  simp only [stripRowNum.eq_def]
  split
  · rfl
  next c rest =>
    by_cases hc : isDigitC c = true
    · rw [if_pos hc]
      have h1 : ((c :: rest).dropWhile isDigitC).countP P = (c :: rest).countP P :=
        countP_dropWhile P isDigitC hdg _
      have h2 : (((c :: rest).dropWhile isDigitC).dropWhile isSpaceC).countP P =
          ((c :: rest).dropWhile isDigitC).countP P :=
        countP_dropWhile P isSpaceC hsp _
      split
      next t heq =>
        rw [countP_dropWhile P isSpaceC hsp t, ← h1, ← h2, heq,
          List.countP_cons, hdot]
        simp
      next => rw [h2, h1]
    · rw [if_neg hc]

/-- The Python `in` test is containment of a contiguous substring. -/
theorem containsSub_correct (nd hay : List Char) :
    containsSub nd hay = true ↔ nd <:+: hay := by
  induction hay with
  | nil => simp [containsSub, List.isEmpty_iff]
  | cons c rest ih =>
    rw [containsSub, List.infix_cons_iff, Bool.or_eq_true,
      List.isPrefixOf_iff_prefix, ih]

/-- A newline-free text splits into the single line it is. -/
theorem splitNl_single (cs : List Char) (h : '\n' ∉ cs) : splitNl cs = [cs] := by
  induction cs with
  | nil => rfl
  | cons c rest ih =>
    have hc : ¬c = '\n' := fun hc => h (hc ▸ List.mem_cons_self c rest)
    have hrest : '\n' ∉ rest := fun hr => h (List.mem_cons_of_mem c hr)
    rw [splitNl, if_neg hc, ih hrest]

/-- Every product keyword has at least four Cyrillic characters. -/
theorem productKeywords_cyr : ∀ kw ∈ productKeywords, 4 ≤ kw.countP isCyrC := by
  decide

/-- A line whose lower-case form contains a product keyword has at least
four kept characters. -/
theorem countP_keeps_of_product (l : List Char) (h : looksLikeProduct l = true) :
    4 ≤ l.countP keeps := by
  rw [looksLikeProduct, List.any_eq_true] at h
  obtain ⟨kw, hkw, hsub⟩ := h
  have hinf : kw <:+: l.map pyLower := (containsSub_correct kw _).mp hsub
  have hle : kw.countP isCyrC ≤ (l.map pyLower).countP isCyrC :=
    hinf.sublist.countP_le isCyrC
  have hmap : (l.map pyLower).countP isCyrC = l.countP keeps :=
    List.countP_map isCyrC pyLower l
  have h4 := productKeywords_cyr kw hkw
  omega

/-- The name residual of a line (with no code and no quantity to strip)
keeps exactly the line's kept characters, until the final length test. -/
theorem extractName_count (l : List Char) (h4 : 4 ≤ l.countP keeps) :
    extractName l [] [] ≠ [] ∧ 3 ≤ (extractName l [] []).length := by
  have hsp := keeps_false_of_space
  have hdg := keeps_false_of_digit
  have hcount : (stripRowNum (pyStripSet isNamePunct (pyStrip (collapseWs l)))).countP keeps
      = l.countP keeps := by
    rw [countP_stripRowNum keeps hsp hdg (by decide),
      countP_pyStripSet keeps isNamePunct keeps_false_of_punct,
      pyStrip_eq, countP_pyStripSet keeps isSpaceC hsp,
      collapseWs, countP_collapseWsAux keeps hsp]
  have hlen : 3 ≤ (stripRowNum (pyStripSet isNamePunct (pyStrip (collapseWs l)))).length := by
    have := List.countP_le_length keeps
      (l := stripRowNum (pyStripSet isNamePunct (pyStrip (collapseWs l))))
    omega
  have hdef : extractName l [] [] =
      if (stripRowNum (pyStripSet isNamePunct (pyStrip (collapseWs l)))).length < 3 then []
      else stripRowNum (pyStripSet isNamePunct (pyStrip (collapseWs l))) := by
    simp [extractName]
  rw [hdef, if_neg (by omega)]
  exact ⟨fun hnil => by rw [hnil] at hlen; simp at hlen, hlen⟩

/-- C8 (amended): a line containing a product keyword but no header
keyword, matching no code pattern and no quantity pattern, still yields
exactly one record — name-only, with empty code and empty quantity and a
non-empty name.  (The amendment adds the header-keyword/short-line guard
the classifier applies before the product-keyword fallback.) -/
theorem claim_C8_amended (line : List Char)
    (hnl : '\n' ∉ line)
    (hhdr : lineHeaderWords.any
      (fun w => containsSub w ((pyStrip line).map pyLower)) = false)
    (hart : extractArticle (pyStrip line) = [])
    (hqty : extractQuantity (pyStrip line) = [])
    (hprod : looksLikeProduct (pyStrip line) = true) :
    extractFromText (String.mk line) =
        [⟨"", String.mk (extractName (pyStrip line) [] []), ""⟩] ∧
      extractName (pyStrip line) [] [] ≠ [] := by
  have h4 := countP_keeps_of_product (pyStrip line) hprod
  have hname := extractName_count (pyStrip line) h4
  have hlen : ¬(pyStrip line).length < 3 := by
    have := List.countP_le_length keeps (l := pyStrip line)
    omega
  constructor
  · rw [extractFromText, show (String.mk line).data = line from rfl,
      splitNl_single line hnl, List.flatMap_cons, List.flatMap_nil,
      List.append_nil, processLine]
    rw [if_neg hlen, if_neg (by simp [hhdr]), hart, hqty]
    rw [if_pos (Or.inr (Or.inr hprod))]
    rw [if_pos (Or.inr ⟨hname.1, by omega⟩)]
  · exact hname.1

/-- C8 witness: the specification's own example line. -/
theorem claim_C8_amended_witness :
    extractFromText (String.mk "Болт без кода".data) =
        [⟨"", String.mk (extractName (pyStrip "Болт без кода".data) [] []), ""⟩] ∧
      extractName (pyStrip "Болт без кода".data) [] [] ≠ [] :=
  claim_C8_amended "Болт без кода".data (by decide) (by decide) (by decide)
    (by decide) (by decide)

/-! ## Characterization of the quantity fallback pattern (for C5)

`re.search(r'\b\d+\s*$', text)` succeeds exactly when the text, after its
trailing whitespace, ends with a non-empty digit run not preceded by a
word character; the stripped match is that digit run. -/

/-- A digit is not whitespace. -/
theorem digit_not_space (c : Char) (h : isDigitC c = true) : isSpaceC c = false := by
  simp only [isDigitC, decide_eq_true_eq] at h
  simp only [isSpaceC, decide_eq_false_iff_not]
  omega

/-- A digit is a word character. -/
theorem digit_word (c : Char) (h : isDigitC c = true) : isWordC c = true := by
  simp only [isWordC, isAlnumC, Bool.or_eq_true]
  exact Or.inl (Or.inl (Or.inr h))

/-- A space is not a digit. -/
theorem space_not_digit (c : Char) (h : isSpaceC c = true) : isDigitC c = false := by
  simp only [isSpaceC, decide_eq_true_eq] at h
  simp only [isDigitC, decide_eq_false_iff_not]
  omega

theorem takeRun_le_length (p : Char → Bool) (l : List Char) : takeRun p l ≤ l.length := by
  induction l with
  | nil => exact Nat.le_refl 0
  | cons c rest ih =>
    rw [takeRun]
    split
    · exact Nat.succ_le_succ ih
    · exact Nat.zero_le _

theorem takeRun_cons_neg (p : Char → Bool) (c : Char) (l : List Char) (h : p c = false) :
    takeRun p (c :: l) = 0 := by
  rw [takeRun, if_neg (by simp [h])]

theorem takeRun_eq_length_iff (p : Char → Bool) (l : List Char) :
    takeRun p l = l.length ↔ l.all p := by
  induction l with
  | nil => simp [takeRun]
  | cons c rest ih =>
    by_cases hc : p c = true
    · rw [takeRun, if_pos hc, List.all_cons, hc]
      simp [ih]
    · have hcf : p c = false := by simpa using hc
      rw [takeRun_cons_neg p c rest hcf, List.all_cons, hcf]
      simp

theorem takeRun_append_all (p : Char → Bool) (l1 l2 : List Char) (h : l1.all p) :
    takeRun p (l1 ++ l2) = l1.length + takeRun p l2 := by
  induction l1 with
  | nil => simp
  | cons c rest ih =>
    rw [List.all_cons, Bool.and_eq_true] at h
    rw [List.cons_append, takeRun, if_pos h.1, ih h.2]
    simp only [List.length_cons]
    omega

theorem getElem?_lt_takeRun (p : Char → Bool) (l : List Char) (j : Nat)
    (h : j < takeRun p l) : ∃ c, l[j]? = some c ∧ p c = true := by
  induction l generalizing j with
  | nil => exact absurd h (by simp [takeRun])
  | cons c rest ih =>
    rw [takeRun] at h
    by_cases hc : p c = true
    · rw [if_pos hc] at h
      cases j with
      | zero => exact ⟨c, by simp, hc⟩
      | succ k =>
        obtain ⟨x, hx, hp⟩ := ih k (by omega)
        exact ⟨x, by simpa using hx, hp⟩
    · rw [if_neg hc] at h
      exact absurd h (by omega)

theorem tryDesc_eq_some_of_top (f : Nat → Option Nat) (d r : Nat) (h : f d = some r) :
    tryDesc f d = some r := by
  cases d with
  | zero => exact h
  | succ k => rw [tryDesc, h]

theorem tryDesc_eq_none (f : Nat → Option Nat) (d : Nat) (h : ∀ k ≤ d, f k = none) :
    tryDesc f d = none := by
  induction d with
  | zero => exact h 0 (Nat.le_refl 0)
  | succ k ih =>
    rw [tryDesc, h (k + 1) (Nat.le_refl _)]
    exact ih fun j hj => h j (Nat.le_trans hj (Nat.le_succ k))

theorem length_takeWhile_append_all (p : Char → Bool) (l1 l2 : List Char)
    (h : l1.all p) : l1.length ≤ ((l1 ++ l2).takeWhile p).length := by
  induction l1 with
  | nil => exact Nat.zero_le _
  | cons c rest ih =>
    rw [List.all_cons, Bool.and_eq_true] at h
    rw [List.cons_append, List.takeWhile_cons, if_pos h.1]
    exact Nat.succ_le_succ (ih h.2)

theorem dropWhile_append_all (p : Char → Bool) (l1 l2 : List Char) (h : l1.all p) :
    (l1 ++ l2).dropWhile p = l2.dropWhile p := by
  induction l1 with
  | nil => rfl
  | cons c rest ih =>
    rw [List.all_cons, Bool.and_eq_true] at h
    rw [List.cons_append, List.dropWhile_cons, if_pos h.1, ih h.2]

theorem dropWhile_cons_neg (p : Char → Bool) (c : Char) (l : List Char)
    (h : p c = false) : (c :: l).dropWhile p = c :: l := by
  rw [List.dropWhile_cons, if_neg (by simp [h])]

theorem getElem?_takeRun (p : Char → Bool) (l : List Char) (h : takeRun p l < l.length) :
    ∃ c, l[takeRun p l]? = some c ∧ p c = false := by
  induction l with
  | nil => simp at h
  | cons c rest ih =>
    by_cases hc : p c = true
    · rw [takeRun, if_pos hc] at h ⊢
      obtain ⟨x, hx, hp⟩ := ih (by simpa using h)
      exact ⟨x, by simpa using hx, hp⟩
    · have hcf : p c = false := by simpa using hc
      rw [takeRun_cons_neg p c rest hcf]
      exact ⟨c, by simp, hcf⟩

theorem reMatch_nil (cs : List Char) (i : Nat) : reMatch cs [] i = some i := rfl

theorem reMatch_bnd (cs : List Char) (rest : List RItem) (i : Nat) :
    reMatch cs (.bnd :: rest) i =
      if boundaryAt cs i then reMatch cs rest i else none := rfl

theorem reMatch_eos (cs : List Char) (rest : List RItem) (i : Nat) :
    reMatch cs (.eos :: rest) i =
      if eosAt cs i then reMatch cs rest i else none := rfl

theorem reMatch_rep (cs : List Char) (q : Char → Bool) (lo : Nat) (hi : Option Nat)
    (rest : List RItem) (i : Nat) :
    reMatch cs (.rep q lo hi :: rest) i =
      if repMax (takeRun q (cs.drop i)) hi < lo then none
      else tryDesc (fun d => reMatch cs rest (i + lo + d))
        (repMax (takeRun q (cs.drop i)) hi - lo) := rfl

/-- Searching `findSome?` over `range n` with a unique success position. -/
theorem findSome?_range_unique {β : Type} (f : Nat → Option β) (n i₀ : Nat) (r : β)
    (hlt : i₀ < n) (h : f i₀ = some r) (hnone : ∀ j < i₀, f j = none) :
    (List.range n).findSome? f = some r := by
  have H : ∀ (m s : Nat), s ≤ i₀ → i₀ < s + m →
      (List.range' s m).findSome? f = some r := by
    intro m
    induction m with
    | zero => intro s _ h2; omega
    | succ k ih =>
      intro s hs h2
      rw [List.range'_succ, List.findSome?_cons]
      rcases Nat.eq_or_lt_of_le hs with rfl | hlt2
      · rw [h]
      · rw [hnone s hlt2]
        exact ih (s + 1) hlt2 (by omega)
  rw [List.range_eq_range']
  exact H n 0 (Nat.zero_le _) (by omega)

/-- Matching `\s*$` at `j` succeeds (ending at the string's end) exactly
when everything from `j` on is whitespace. -/
theorem reMatch_wsEos (cs : List Char) (j : Nat) (hj : j ≤ cs.length) :
    reMatch cs [.rep isSpaceC 0 none, .eos] j =
      if (cs.drop j).all isSpaceC then some cs.length else none := by
  rw [reMatch_rep]
  rw [if_neg (by omega)]
  have hrun_le : takeRun isSpaceC (cs.drop j) ≤ cs.length - j := by
    have := takeRun_le_length isSpaceC (cs.drop j)
    simpa [List.length_drop] using this
  simp only [Nat.zero_add, Nat.add_zero, Nat.sub_zero, repMax]
  by_cases hall : (cs.drop j).all isSpaceC = true
  · rw [if_pos hall]
    have hrun : takeRun isSpaceC (cs.drop j) = cs.length - j := by
      rw [(takeRun_eq_length_iff _ _).mpr hall, List.length_drop]
    refine tryDesc_eq_some_of_top _ _ _ ?_
    rw [reMatch_eos, if_pos (by simp [eosAt, hrun]; omega), reMatch_nil]
    congr 1
    omega
  · rw [if_neg hall]
    have hlt : takeRun isSpaceC (cs.drop j) < cs.length - j := by
      rcases Nat.lt_or_ge (takeRun isSpaceC (cs.drop j)) (cs.length - j) with h | h
      · exact h
      · have : takeRun isSpaceC (cs.drop j) = (cs.drop j).length := by
          have := List.length_drop j cs
          omega
        exact absurd ((takeRun_eq_length_iff _ _).mp this) hall
    refine tryDesc_eq_none _ _ ?_
    intro k hk
    rw [reMatch_eos, if_neg ?_]
    simp only [eosAt, Bool.or_eq_true, Bool.and_eq_true, decide_eq_true_eq]
    push_neg
    refine ⟨by omega, fun hk1 => ?_⟩
    have hkrun : k = takeRun isSpaceC (cs.drop j) := by omega
    obtain ⟨c, hc, hcp⟩ := getElem?_takeRun isSpaceC (cs.drop j)
      (by rw [List.length_drop]; omega)
    rw [List.getElem?_drop] at hc
    rw [List.get?_eq_getElem?,
      show j + k = j + takeRun isSpaceC (cs.drop j) from by omega, hc]
    intro hcontra
    have : c = '\n' := by simpa using hcontra
    subst this
    exact absurd hcp (by decide)

/-- Matching `\d+\s*$` at `i` succeeds exactly when a non-empty digit run
starts at `i` and only whitespace follows it. -/
theorem reMatch_digitWsEos (cs : List Char) (i : Nat) (hi : i ≤ cs.length) :
    reMatch cs [.rep isDigitC 1 none, .rep isSpaceC 0 none, .eos] i =
      if 1 ≤ takeRun isDigitC (cs.drop i) ∧
          (cs.drop (i + takeRun isDigitC (cs.drop i))).all isSpaceC then some cs.length
      else none := by
  rw [reMatch_rep]
  simp only [repMax]
  have hrun_le : takeRun isDigitC (cs.drop i) ≤ cs.length - i := by
    have := takeRun_le_length isDigitC (cs.drop i)
    simpa [List.length_drop] using this
  by_cases h1 : takeRun isDigitC (cs.drop i) < 1
  · rw [if_pos h1, if_neg (by omega)]
  · rw [if_neg h1]
    by_cases hall : (cs.drop (i + takeRun isDigitC (cs.drop i))).all isSpaceC = true
    · rw [if_pos ⟨by omega, hall⟩]
      refine tryDesc_eq_some_of_top _ _ _ ?_
      rw [show i + 1 + (takeRun isDigitC (cs.drop i) - 1) =
        i + takeRun isDigitC (cs.drop i) from by omega,
        reMatch_wsEos cs _ (by omega), if_pos hall]
    · rw [if_neg (fun hcon => hall hcon.2)]
      refine tryDesc_eq_none _ _ ?_
      intro k hk
      rw [reMatch_wsEos cs _ (by omega), if_neg ?_]
      by_cases hktop : k = takeRun isDigitC (cs.drop i) - 1
      · rw [show i + 1 + k = i + takeRun isDigitC (cs.drop i) from by omega]
        exact hall
      · obtain ⟨c, hc, hcp⟩ := getElem?_lt_takeRun isDigitC (cs.drop i) (1 + k) (by omega)
        rw [List.getElem?_drop] at hc
        intro hcontra
        rw [List.all_eq_true] at hcontra
        have hmem : c ∈ cs.drop (i + 1 + k) := by
          rw [List.mem_iff_getElem?]
          exact ⟨0, by rw [List.getElem?_drop, Nat.add_zero,
            show i + 1 + k = i + (1 + k) from by omega, hc]⟩
        have := hcontra c hmem
        exact absurd this (by rw [digit_not_space c hcp]; simp)

theorem wordAt_some (cs : List Char) (n : Nat) (c : Char) (h : cs[n]? = some c) :
    wordAt cs n = isWordC c := by
  rw [wordAt, List.get?_eq_getElem?, h]

theorem boundaryAt_zero (cs : List Char) : boundaryAt cs 0 = wordAt cs 0 := rfl

theorem boundaryAt_succ (cs : List Char) (m : Nat) :
    boundaryAt cs (m + 1) = (wordAt cs m != wordAt cs (m + 1)) := rfl

/-- The success condition of `\b\d+\s*$` at position `i`, for a string
decomposed as `p ++ d ++ wsuf` (maximal trailing whitespace `wsuf`,
maximal digit run `d` before it): it holds exactly at the start of `d`,
when `d` is non-empty and not preceded by a word character. -/
theorem qtyCond_iff (cs t d p wsuf : List Char)
    (hcs : cs = t ++ wsuf) (ht : t = p ++ d)
    (hwall : wsuf.all isSpaceC = true) (hdall : d.all isDigitC = true)
    (htlast : ∀ z, t.getLast? = some z → isSpaceC z = false)
    (hplast : ∀ z, p.getLast? = some z → isDigitC z = false)
    (i : Nat) (hi : i ≤ cs.length) :
    (boundaryAt cs i = true ∧ 1 ≤ takeRun isDigitC (cs.drop i) ∧
        (cs.drop (i + takeRun isDigitC (cs.drop i))).all isSpaceC = true) ↔
      (d ≠ [] ∧ i = p.length ∧ ∀ z, p.getLast? = some z → isWordC z = false) := by
  have hclen : cs.length = p.length + d.length + wsuf.length := by
    rw [hcs, ht, List.length_append, List.length_append]
  have htlen : t.length = p.length + d.length := by
    rw [ht, List.length_append]
  have hget_t : ∀ q, q < t.length → cs[q]? = t[q]? := by
    intro q hq
    rw [hcs, List.getElem?_append, if_pos hq]
  have hget_w : ∀ q, t.length ≤ q → cs[q]? = wsuf[q - t.length]? := by
    intro q hq
    rw [hcs, List.getElem?_append_right hq]
  have hget_p : ∀ q, q < p.length → t[q]? = p[q]? := by
    intro q hq
    rw [ht, List.getElem?_append, if_pos hq]
  have hget_d : ∀ q, p.length ≤ q → t[q]? = d[q - p.length]? := by
    intro q hq
    rw [ht, List.getElem?_append_right hq]
  constructor
  · rintro ⟨hb, h1, hall⟩
    set run := takeRun isDigitC (cs.drop i) with hrundef
    have hrun_le : run ≤ cs.length - i := by
      have := takeRun_le_length isDigitC (cs.drop i)
      simpa [List.length_drop] using this
    -- (a) the digit run reaches at least the end of t
    have ha : t.length ≤ i + run := by
      by_contra hcon
      push_neg at hcon
      have htne : t ≠ [] := by
        intro h0
        rw [h0] at hcon
        simp at hcon
      obtain ⟨z, hz⟩ : ∃ z, t.getLast? = some z := by
        have := List.getLast?_isSome.mpr htne
        exact Option.isSome_iff_exists.mp this
      have hzq : cs[t.length - 1]? = some z := by
        rw [hget_t _ (by omega), ← List.getLast?_eq_getElem?, hz]
      have hmem : z ∈ cs.drop (i + run) := by
        rw [List.mem_iff_getElem?]
        exact ⟨t.length - 1 - (i + run), by
          rw [List.getElem?_drop, show i + run + (t.length - 1 - (i + run)) =
            t.length - 1 from by omega, hzq]⟩
      have hws := (List.all_eq_true.mp hall) z hmem
      rw [htlast z hz] at hws
      exact absurd hws (by simp)
    -- (b) the digit run does not go beyond t
    have hb2 : i + run ≤ t.length := by
      by_contra hcon
      push_neg at hcon
      have hq3 : max i t.length < i + run := by omega
      obtain ⟨c, hc, hcp⟩ := getElem?_lt_takeRun isDigitC (cs.drop i)
        (max i t.length - i) (by omega)
      rw [List.getElem?_drop, show i + (max i t.length - i) = max i t.length
        from by omega] at hc
      have hcw : cs[max i t.length]? = wsuf[max i t.length - t.length]? :=
        hget_w _ (by omega)
      have hmem : c ∈ wsuf := by
        rw [List.mem_iff_getElem?]
        exact ⟨max i t.length - t.length, by rw [← hcw, hc]⟩
      have := (List.all_eq_true.mp hwall) c hmem
      rw [space_not_digit c this] at hcp
      exact absurd hcp (by simp)
    have hrunend : i + run = t.length := by omega
    -- (c) i is at least the start of d
    have hc3 : p.length ≤ i := by
      by_contra hcon
      push_neg at hcon
      have hpne : p ≠ [] := by
        intro h0
        rw [h0] at hcon
        simp at hcon
      obtain ⟨z, hz⟩ : ∃ z, p.getLast? = some z :=
        Option.isSome_iff_exists.mp (List.getLast?_isSome.mpr hpne)
      obtain ⟨c, hc, hcp⟩ := getElem?_lt_takeRun isDigitC (cs.drop i)
        (p.length - 1 - i) (by omega)
      rw [List.getElem?_drop, show i + (p.length - 1 - i) = p.length - 1
        from by omega] at hc
      have : cs[p.length - 1]? = some z := by
        rw [hget_t _ (by omega), hget_p _ (by omega),
          ← List.getLast?_eq_getElem?, hz]
      rw [this] at hc
      obtain rfl : z = c := by injection hc
      rw [hplast z hz] at hcp
      exact absurd hcp (by simp)
    -- (d) i is at most the start of d
    have hd4 : i ≤ p.length := by
      by_contra hcon
      push_neg at hcon
      obtain ⟨m, rfl⟩ : ∃ m, i = m + 1 := ⟨i - 1, by omega⟩
      obtain ⟨c, hc, hcp⟩ := getElem?_lt_takeRun isDigitC (cs.drop (m + 1)) 0
        (by omega)
      rw [List.getElem?_drop, Nat.add_zero] at hc
      have hw1 : wordAt cs (m + 1) = true := by
        rw [wordAt_some cs (m + 1) c hc]
        exact digit_word c hcp
      have hcm : cs[m]? = d[m - p.length]? := by
        rw [hget_t _ (by omega), hget_d _ (by omega)]
      obtain ⟨c', hc'⟩ : ∃ c', d[m - p.length]? = some c' := by
        have hmlt : m - p.length < d.length := by omega
        exact ⟨d[m - p.length], List.getElem?_eq_getElem hmlt⟩
      have hw0 : wordAt cs m = true := by
        rw [wordAt_some cs m c' (by rw [hcm, hc'])]
        refine digit_word c' ((List.all_eq_true.mp hdall) c' ?_)
        rw [List.mem_iff_getElem?]
        exact ⟨m - p.length, hc'⟩
      rw [boundaryAt_succ, hw0, hw1] at hb
      simp at hb
    have hip : i = p.length := by omega
    have hd0 : d ≠ [] := by
      have : run = d.length := by omega
      intro h0
      rw [h0] at this
      simp at this
      omega
    refine ⟨hd0, hip, fun z hz => ?_⟩
    have hpne : p ≠ [] := by
      intro h0
      rw [h0] at hz
      simp at hz
    obtain ⟨m, hm⟩ : ∃ m, p.length = m + 1 := by
      have := List.length_pos.mpr hpne
      exact ⟨p.length - 1, by omega⟩
    obtain ⟨c, hc, hcp⟩ := getElem?_lt_takeRun isDigitC (cs.drop i) 0 (by omega)
    rw [List.getElem?_drop, Nat.add_zero] at hc
    have hwi : wordAt cs i = true := by
      rw [wordAt_some cs i c hc]
      exact digit_word c hcp
    have hzm : cs[m]? = some z := by
      rw [hget_t _ (by omega), hget_p _ (by omega), show m = p.length - 1
        from by omega, ← List.getLast?_eq_getElem?, hz]
    rw [hip, hm, boundaryAt_succ, show m + 1 = i from by omega, hwi,
      wordAt_some cs m z hzm] at hb
    cases hzw : isWordC z with
    | false => rfl
    | true => rw [hzw] at hb; simp at hb
  · rintro ⟨hd0, rfl, hbok⟩
    have hdrop : cs.drop p.length = d ++ wsuf := by
      rw [hcs, ht, List.append_assoc, List.drop_left]
    have hwrun : takeRun isDigitC wsuf = 0 := by
      cases hw : wsuf with
      | nil => rfl
      | cons c r =>
        rw [hw, List.all_cons, Bool.and_eq_true] at hwall
        exact takeRun_cons_neg _ _ _ (space_not_digit c hwall.1)
    have hrun : takeRun isDigitC (cs.drop p.length) = d.length := by
      rw [hdrop, takeRun_append_all _ _ _ hdall, hwrun]
      omega
    have hdpos : 0 < d.length := List.length_pos.mpr hd0
    obtain ⟨dh, dt, rfl⟩ : ∃ dh dt, d = dh :: dt := by
      cases d with
      | nil => exact absurd rfl hd0
      | cons dh dt => exact ⟨dh, dt, rfl⟩
    have hgetp : cs[p.length]? = some dh := by
      rw [hcs, ht, List.append_assoc, List.getElem?_append_right (Nat.le_refl _),
        Nat.sub_self]
      simp
    have hwp : wordAt cs p.length = true := by
      rw [wordAt_some cs p.length dh hgetp]
      refine digit_word dh ?_
      rw [List.all_cons, Bool.and_eq_true] at hdall
      exact hdall.1
    refine ⟨?_, by rw [hrun]; omega, ?_⟩
    · rcases Nat.eq_zero_or_pos p.length with hp0 | hppos
      · rw [hp0] at hwp ⊢
        rw [boundaryAt_zero]
        exact hwp
      · obtain ⟨m, hm⟩ : ∃ m, p.length = m + 1 := ⟨p.length - 1, by omega⟩
        have hpne : p ≠ [] := by
          intro h0
          rw [h0] at hppos
          simp at hppos
        obtain ⟨z, hz⟩ : ∃ z, p.getLast? = some z :=
          Option.isSome_iff_exists.mp (List.getLast?_isSome.mpr hpne)
        have hzm : cs[m]? = some z := by
          rw [hget_t _ (by omega), hget_p _ (by omega), show m = p.length - 1
            from by omega, ← List.getLast?_eq_getElem?, hz]
        rw [hm, boundaryAt_succ, wordAt_some cs m z hzm, hbok z hz, ← hm, hwp]
        rfl
    · rw [hrun, show p.length + (dh :: dt).length = t.length from by omega,
        show cs.drop t.length = wsuf from by rw [hcs, List.drop_left]]
      exact hwall

theorem dropWhile_ws_of_all_digit (l : List Char) (h : l.all isDigitC = true) :
    l.dropWhile isSpaceC = l := by
  cases l with
  | nil => rfl
  | cons c r =>
    rw [List.all_cons, Bool.and_eq_true] at h
    exact dropWhile_cons_neg _ _ _ (digit_not_space c h.1)

/-- Stripping a digit run followed by whitespace yields the digit run. -/
theorem pyStrip_digits_ws (d wsuf : List Char) (hd : d ≠ [])
    (hdall : d.all isDigitC = true) (hwall : wsuf.all isSpaceC = true) :
    pyStrip (d ++ wsuf) = d := by
  obtain ⟨dh, dt, rfl⟩ : ∃ dh dt, d = dh :: dt := by
    cases d with
    | nil => exact absurd rfl hd
    | cons a b => exact ⟨a, b, rfl⟩
  have hdh : isDigitC dh = true := by
    rw [List.all_cons, Bool.and_eq_true] at hdall
    exact hdall.1
  have hwrev : wsuf.reverse.all isSpaceC = true := by
    rw [List.all_eq_true]
    intro x hx
    rw [List.mem_reverse] at hx
    exact (List.all_eq_true.mp hwall) x hx
  have hrev : (dh :: dt).reverse.all isDigitC = true := by
    rw [List.all_eq_true]
    intro x hx
    rw [List.mem_reverse] at hx
    exact (List.all_eq_true.mp hdall) x hx
  unfold pyStrip
  rw [List.cons_append, dropWhile_cons_neg _ _ _ (digit_not_space dh hdh),
    ← List.cons_append, List.reverse_append,
    dropWhile_append_all _ _ _ hwrev,
    dropWhile_ws_of_all_digit _ hrev,
    List.reverse_reverse]

/-- The stripped result of searching `\b\d+\s*$` is exactly the trailing
bare number of the specification's fallback clause. -/
theorem fallback_group (cs : List Char) :
    (reSearchGroup qtyFallbackPat cs).map pyStrip = bareTrailingNumber cs := by
  simp only [bareTrailingNumber, dropTrailingWs]
  set t : List Char := (cs.reverse.dropWhile isSpaceC).reverse with htdef
  set d : List Char := (t.reverse.takeWhile isDigitC).reverse with hddef
  set p : List Char := (t.reverse.dropWhile isDigitC).reverse with hpdef
  set wsuf : List Char := (cs.reverse.takeWhile isSpaceC).reverse with hwdef
  have hcs : cs = t ++ wsuf := by
    rw [htdef, hwdef, ← List.reverse_append, List.takeWhile_append_dropWhile,
      List.reverse_reverse]
  have ht2 : t = p ++ d := by
    rw [hpdef, hddef, ← List.reverse_append, List.takeWhile_append_dropWhile,
      List.reverse_reverse]
  have hwall : wsuf.all isSpaceC = true := by
    rw [hwdef, List.all_eq_true]
    intro x hx
    rw [List.mem_reverse] at hx
    exact List.mem_takeWhile_imp hx
  have hdall : d.all isDigitC = true := by
    rw [hddef, List.all_eq_true]
    intro x hx
    rw [List.mem_reverse] at hx
    exact List.mem_takeWhile_imp hx
  have htlast : ∀ z, t.getLast? = some z → isSpaceC z = false := by
    intro z hz
    rw [htdef, List.getLast?_reverse] at hz
    have := List.head?_dropWhile_not isSpaceC cs.reverse
    rw [hz] at this
    exact this
  have hplast : ∀ z, p.getLast? = some z → isDigitC z = false := by
    intro z hz
    rw [hpdef, List.getLast?_reverse] at hz
    have := List.head?_dropWhile_not isDigitC t.reverse
    rw [hz] at this
    exact this
  have hplen_le : p.length ≤ cs.length := by
    have h1 : t.length = p.length + d.length := by rw [ht2, List.length_append]
    have h2 : cs.length = t.length + wsuf.length := by rw [hcs, List.length_append]
    omega
  have hmatch : ∀ i, i ≤ cs.length →
      reMatch cs qtyFallbackPat i =
        if d ≠ [] ∧ i = p.length ∧ (∀ z, p.getLast? = some z → isWordC z = false)
        then some cs.length else none := by
    intro i hi
    have hiff := qtyCond_iff cs t d p wsuf hcs ht2 hwall hdall htlast hplast i hi
    rw [show qtyFallbackPat = RItem.bnd ::
      [RItem.rep isDigitC 1 none, RItem.rep isSpaceC 0 none, RItem.eos] from rfl,
      reMatch_bnd, reMatch_digitWsEos cs i hi]
    by_cases hcond : d ≠ [] ∧ i = p.length ∧
        (∀ z, p.getLast? = some z → isWordC z = false)
    · obtain ⟨hb, h1, hall⟩ := hiff.mpr hcond
      rw [if_pos hb, if_pos ⟨h1, hall⟩, if_pos hcond]
    · rw [if_neg hcond]
      by_cases hb : boundaryAt cs i = true
      · rw [if_pos hb, if_neg fun h2 => hcond (hiff.mp ⟨hb, h2.1, h2.2⟩)]
      · rw [if_neg hb]
  by_cases hcond : d ≠ [] ∧ (∀ z, p.getLast? = some z → isWordC z = false)
  · have hsearch : reSearch qtyFallbackPat cs = some (p.length, cs.length) := by
      rw [reSearch]
      refine findSome?_range_unique _ _ p.length (p.length, cs.length)
        (by omega) ?_ ?_
      · rw [hmatch p.length (by omega), if_pos ⟨hcond.1, rfl, hcond.2⟩]
        rfl
      · intro j hj
        rw [hmatch j (by omega), if_neg ?_]
        · rfl
        · rintro ⟨-, rfl, -⟩
          omega
    have hdrop : cs.drop p.length = d ++ wsuf := by
      rw [hcs, ht2, List.append_assoc, List.drop_left]
    have hlen2 : cs.length - p.length = (d ++ wsuf).length := by
      have h1 : t.length = p.length + d.length := by rw [ht2, List.length_append]
      have h2 : cs.length = t.length + wsuf.length := by rw [hcs, List.length_append]
      rw [List.length_append]
      omega
    rw [reSearchGroup, hsearch]
    simp only [Option.map_some']
    rw [hdrop, hlen2, List.take_length,
      pyStrip_digits_ws d wsuf hcond.1 hdall hwall]
    rw [if_neg (by simp [List.isEmpty_iff, hcond.1])]
    cases hlast : p.getLast? with
    | none => rfl
    | some z =>
      show some d = if isWordC z = true then none else some d
      rw [if_neg (by rw [hcond.2 z hlast]; simp)]
  · have hsearch : reSearch qtyFallbackPat cs = none := by
      rw [reSearch, List.findSome?_eq_none_iff]
      intro x hx
      rw [List.mem_range] at hx
      rw [hmatch x (by omega), if_neg fun h2 => hcond ⟨h2.1, h2.2.2⟩]
      rfl
    rw [reSearchGroup, hsearch]
    simp only [Option.map_none']
    by_cases hd0 : d = []
    · rw [if_pos (by simp [List.isEmpty_iff, hd0])]
    · rw [if_neg (by simp [List.isEmpty_iff, hd0])]
      have hbad : ¬∀ z, p.getLast? = some z → isWordC z = false :=
        fun hall => hcond ⟨hd0, hall⟩
      push_neg at hbad
      obtain ⟨z, hz, hw⟩ := hbad
      rw [hz]
      show (none : Option (List Char)) = if isWordC z = true then none else some d
      rw [if_pos (by simpa using hw)]

/-- The quantity loop returns the first pattern match in priority order. -/
theorem extractQuantityGo_eq (cs : List Char) (ps : List (List RItem)) :
    extractQuantityGo cs ps =
      ps.findSome? (fun p => (reSearchGroup p cs).map pyStrip) := by
  induction ps with
  | nil => rfl
  | cons p ps ih =>
    rw [List.findSome?_cons]
    cases hm : reSearchGroup p cs with
    | none => simpa [extractQuantityGo, hm] using ih
    | some m => simp [extractQuantityGo, hm]

/-- C5: the Quantity Matcher returns the first case-insensitive
quantity-pattern match in priority order; failing that, when the line ends
with a bare number (a maximal digit run, not preceded by a word character,
followed only by whitespace) it returns that number with the default unit
" шт" appended; otherwise it returns empty. -/
theorem claim_C5_quantity_spec :
    ∀ line : List Char, extractQuantity line = quantitySpec line := by
  intro cs
  rw [extractQuantity, quantitySpec, extractQuantityGo_eq]
  cases hfind : quantityPatterns.findSome?
      (fun p => (reSearchGroup p cs).map pyStrip) with
  | some q => rfl
  | none =>
    have hfb := fallback_group cs
    cases hg : reSearchGroup qtyFallbackPat cs with
    | some m =>
      rw [hg, Option.map_some'] at hfb
      rw [← hfb]
    | none =>
      rw [hg, Option.map_none'] at hfb
      rw [← hfb]

end OcrExtract
